import Mathlib

/-!
Verification of the propositional resolution engine in
`lab02-logic/PS5/src/main.py` (classes `Literal`, `Clause`, `KnowledgeBase`).

The Python classes are shallowly embedded as Lean structures; mutating
methods (`negate`, `refactor`, `add_literal`) become value-returning
functions; Python exceptions (IndexError on out-of-range string indexing)
become `Option.none`; the Python `set` of canonical clauses is modelled as
a `Finset`.
-/

/-- Embedding of class `Literal` (`main.py` lines 6-51): a propositional
symbol together with a polarity.  Python indexes single characters, so
`symbol` is a `Char`. -/
structure Literal where
  symbol : Char
  negated : Bool
deriving DecidableEq, Repr

/-- Embedding of `Literal.__lt__` (lines 27-34): primary key the symbol,
secondary key the polarity with `False < True` (Python bool comparison). -/
def Literal.lt (a b : Literal) : Prop :=
  if a.symbol = b.symbol then a.negated = false ∧ b.negated = true
  else a.symbol < b.symbol

instance : DecidableRel Literal.lt := fun a b => by
  unfold Literal.lt
  infer_instance

/-- The (non-strict) total order induced by `Literal.__lt__`, which is the
order Python's `sorted` arranges literals in: `a ≤ b` iff `¬ (b < a)`. -/
def Literal.le (a b : Literal) : Prop := ¬ Literal.lt b a

instance : DecidableRel Literal.le := fun a b => by
  unfold Literal.le
  infer_instance

theorem Literal.lt_iff {a b : Literal} :
    Literal.lt a b ↔
      a.symbol < b.symbol ∨
        (a.symbol = b.symbol ∧ a.negated = false ∧ b.negated = true) := by
  unfold Literal.lt
  by_cases h : a.symbol = b.symbol
  · simp [h]
  · simp [h]

theorem Literal.lt_asymm {a b : Literal} (hab : Literal.lt a b) :
    ¬ Literal.lt b a := by
  rw [Literal.lt_iff] at *
  rintro (h | ⟨h, hb, ha⟩) <;> rcases hab with h' | ⟨h', ha', hb'⟩
  · exact absurd h' (not_lt_of_lt h)
  · exact absurd h (h'.symm ▸ lt_irrefl _)
  · exact absurd h' (h.symm ▸ lt_irrefl _)
  · rw [hb'] at hb
    cases hb

theorem Literal.lt_trans' {a b c : Literal} (hab : Literal.lt a b)
    (hbc : Literal.lt b c) : Literal.lt a c := by
  rw [Literal.lt_iff] at *
  rcases hab with h | ⟨h, ha, hb⟩ <;> rcases hbc with h' | ⟨h', hb', hc⟩
  · exact Or.inl (lt_trans h h')
  · exact Or.inl (h' ▸ h)
  · exact Or.inl (h ▸ h')
  · rw [hb'] at hb
    cases hb

theorem Literal.lt_or_lt_of_ne {a b : Literal} (h : a ≠ b) :
    Literal.lt a b ∨ Literal.lt b a := by
  rw [Literal.lt_iff, Literal.lt_iff]
  by_cases hs : a.symbol = b.symbol
  · have hn : a.negated ≠ b.negated := by
      intro hn
      exact h (by cases a; cases b; simp_all)
    cases ha : a.negated <;> cases hb : b.negated
    · rw [ha, hb] at hn
      cases hn rfl
    · exact Or.inl (Or.inr ⟨hs, rfl, rfl⟩)
    · exact Or.inr (Or.inr ⟨hs.symm, rfl, rfl⟩)
    · rw [ha, hb] at hn
      cases hn rfl
  · rcases lt_or_gt_of_ne (show a.symbol ≠ b.symbol from hs) with h' | h'
    · exact Or.inl (Or.inl h')
    · exact Or.inr (Or.inl h')

instance : IsTotal Literal Literal.le := by
  constructor
  intro a b
  by_cases h : Literal.lt a b
  · exact Or.inl (Literal.lt_asymm h)
  · exact Or.inr h

instance : IsTrans Literal Literal.le := by
  constructor
  intro a b c hab hbc hca
  by_cases h : b = c
  · exact hab (by rw [h]; exact hca)
  · rcases Literal.lt_or_lt_of_ne h with h' | h'
    · exact hab (Literal.lt_trans' h' hca)
    · exact hbc h'

instance : IsAntisymm Literal Literal.le := by
  constructor
  intro a b hab hba
  by_contra h
  rcases Literal.lt_or_lt_of_ne h with h' | h'
  · exact hba h'
  · exact hab h'

instance : IsRefl Literal Literal.le := by
  constructor
  intro a h
  rw [Literal.lt_iff] at h
  rcases h with h | ⟨_, h1, h2⟩
  · exact lt_irrefl _ h
  · rw [h1] at h2
    cases h2

/-- Embedding of class `Clause` (lines 54-172): a disjunction of literals,
kept as the ordered list `self.literals`. -/
structure Clause where
  literals : List Literal
deriving DecidableEq, Repr

/-- List-level body of `Clause.refactor` (lines 97-101):
`self.literals = sorted(set(self.literals))` — remove duplicates, then sort
by `Literal.__lt__`. -/
def Clause.refactorL (l : List Literal) : List Literal :=
  List.insertionSort Literal.le l.dedup

/-- Embedding of `Clause.refactor` (lines 97-101), as a value-returning
function on the immutable clause value. -/
def Clause.refactor (c : Clause) : Clause :=
  ⟨Clause.refactorL c.literals⟩

theorem Clause.refactorL_sorted (l : List Literal) :
    List.Sorted Literal.le (Clause.refactorL l) :=
  List.sorted_insertionSort Literal.le l.dedup

theorem Clause.refactorL_perm (l : List Literal) :
    List.Perm (Clause.refactorL l) l.dedup :=
  List.perm_insertionSort Literal.le l.dedup

theorem Clause.refactorL_nodup (l : List Literal) :
    (Clause.refactorL l).Nodup :=
  (Clause.refactorL_perm l).nodup_iff.mpr (List.nodup_dedup l)

theorem Clause.mem_refactorL {x : Literal} {l : List Literal} :
    x ∈ Clause.refactorL l ↔ x ∈ l := by
  rw [Clause.refactorL, List.mem_insertionSort, List.mem_dedup]

theorem Clause.refactorL_idem (l : List Literal) :
    Clause.refactorL (Clause.refactorL l) = Clause.refactorL l := by
  have hd : (Clause.refactorL l).dedup = Clause.refactorL l :=
    List.dedup_eq_self.mpr (Clause.refactorL_nodup l)
  rw [Clause.refactorL, hd]
  exact (Clause.refactorL_sorted l).insertionSort_eq

/-- C7: canonicalization is idempotent — for every clause `c`,
`refactor (refactor c) = refactor c`. -/
theorem refactor_idempotent (c : Clause) :
    (c.refactor).refactor = c.refactor :=
  congrArg Clause.mk (Clause.refactorL_idem c.literals)

/-- Embedding of `Literal.negate` (lines 36-37); the in-place polarity flip
becomes a value-returning function. -/
def Literal.negate (l : Literal) : Literal :=
  { l with negated := !l.negated }

/-- Embedding of `Literal.is_complement` (lines 39-40):
`self.negated != other.negated and self.symbol == other.symbol`. -/
def Literal.is_complement (a b : Literal) : Bool :=
  (a.negated != b.negated) && (a.symbol == b.symbol)

/-- Embedding of `Clause.is_empty` (lines 91-92). -/
def Clause.is_empty (c : Clause) : Bool :=
  c.literals.isEmpty

/-- List-level body of `Clause.is_always_true` (lines 103-111): scan the
(sorted) literal list for an adjacent complementary pair. -/
def Clause.is_always_trueL : List Literal → Bool
  | l1 :: l2 :: rest => l1.is_complement l2 || Clause.is_always_trueL (l2 :: rest)
  | _ => false

/-- Embedding of `Clause.is_always_true` (lines 103-111). -/
def Clause.is_always_true (c : Clause) : Bool :=
  Clause.is_always_trueL c.literals

theorem Literal.symbol_eq_of_between {s : Char} {b : Literal}
    (h1 : Literal.le ⟨s, false⟩ b) (h2 : Literal.le b ⟨s, true⟩) :
    b.symbol = s := by
  unfold Literal.le at h1 h2
  rw [Literal.lt_iff] at h1 h2
  push_neg at h1 h2
  exact le_antisymm h2.1 h1.1

theorem Clause.taut_of_sorted (s : Char) (l : List Literal)
    (hs : List.Sorted Literal.le l) (hn : l.Nodup)
    (h1 : (⟨s, false⟩ : Literal) ∈ l) (h2 : (⟨s, true⟩ : Literal) ∈ l) :
    Clause.is_always_trueL l = true := by
  induction l with
  | nil => cases h1
  | cons a t ih =>
    rw [List.sorted_cons] at hs
    rw [List.nodup_cons] at hn
    rcases List.mem_cons.mp h1 with e1 | m1
    · -- head is the unnegated literal ⟨s, false⟩
      have hyt : (⟨s, true⟩ : Literal) ∈ t := by
        rcases List.mem_cons.mp h2 with e2 | m2
        · rw [← e1] at e2
          cases e2
        · exact m2
      match t, hyt with
      | b :: t', hyt =>
        by_cases hb : b = ⟨s, true⟩
        · have : a.is_complement b = true := by
            rw [← e1, hb]
            simp [Literal.is_complement]
          rw [Clause.is_always_trueL, this, Bool.true_or]
        · have hby : (⟨s, true⟩ : Literal) ∈ t' := by
            rcases List.mem_cons.mp hyt with e | m
            · exact absurd e.symm hb
            · exact m
          have hab : Literal.le a b := hs.1 b (List.mem_cons_self b t')
          have hbs : List.Sorted Literal.le (b :: t') := hs.2
          rw [List.sorted_cons] at hbs
          have hb2 : Literal.le b ⟨s, true⟩ := hbs.1 _ hby
          have hsym : b.symbol = s :=
            Literal.symbol_eq_of_between (by rw [e1]; exact hab) hb2
          cases hneg : b.negated with
          | false =>
            have : b = a := by
              rw [← e1]
              cases b
              simp_all
            rw [this] at hn
            exact absurd (List.mem_cons_self a t') hn.1
          | true =>
            have : b = ⟨s, true⟩ := by
              cases b
              simp_all
            exact absurd this hb
    · -- the unnegated literal is in the tail
      have hyt : (⟨s, true⟩ : Literal) ∈ t := by
        rcases List.mem_cons.mp h2 with e2 | m2
        · -- head equal to ⟨s, true⟩ would sit above ⟨s, false⟩ in the tail
          exfalso
          have hle : Literal.le a ⟨s, false⟩ := hs.1 _ m1
          rw [← e2] at hle
          apply hle
          rw [Literal.lt_iff]
          exact Or.inr ⟨rfl, rfl, rfl⟩
        · exact m2
      have htaut : Clause.is_always_trueL t = true := ih hs.2 hn.2 m1 hyt
      match t, htaut with
      | b :: t', htaut =>
        rw [Clause.is_always_trueL, htaut, Bool.or_true]

/-- C8: if a clause contains a literal and its complement then, after
`refactor`, the adjacent-complement scan `is_always_true` returns `true`. -/
theorem is_always_true_after_refactor (x y : Literal) (c : Clause)
    (hx : x ∈ c.literals) (hy : y ∈ c.literals)
    (hc : x.is_complement y = true) :
    (c.refactor).is_always_true = true := by
  rw [Literal.is_complement, Bool.and_eq_true, bne_iff_ne, beq_iff_eq] at hc
  have hsorted := Clause.refactorL_sorted c.literals
  have hnodup := Clause.refactorL_nodup c.literals
  have hx' : x ∈ Clause.refactorL c.literals := Clause.mem_refactorL.mpr hx
  have hy' : y ∈ Clause.refactorL c.literals := Clause.mem_refactorL.mpr hy
  rw [Clause.refactor, Clause.is_always_true]
  cases hxn : x.negated with
  | false =>
    apply Clause.taut_of_sorted x.symbol
    · exact hsorted
    · exact hnodup
    · have : x = ⟨x.symbol, false⟩ := by cases x; simp_all
      rw [← this]
      exact hx'
    · have : y = ⟨x.symbol, true⟩ := by
        cases y
        cases x
        simp_all
      rw [← this]
      exact hy'
  | true =>
    apply Clause.taut_of_sorted x.symbol
    · exact hsorted
    · exact hnodup
    · have : y = ⟨x.symbol, false⟩ := by
        cases y
        cases x
        simp_all
    
      rw [← this]
      exact hy'
    · have : x = ⟨x.symbol, true⟩ := by cases x; simp_all
      rw [← this]
      exact hx'

/-- Embedding of `Clause.add_literal` (lines 94-95): append to the working
literal sequence. -/
def Clause.add_literal (c : Clause) (l : Literal) : Clause :=
  ⟨c.literals ++ [l]⟩

/-- Embedding of `Clause.merge` (lines 113-121): concatenate the two
literal sequences, then refactor. -/
def Clause.merge (a b : Clause) : Clause :=
  Clause.refactor ⟨a.literals ++ b.literals⟩

/-- Embedding of `Clause.clone_without` (lines 123-133): keep every literal
not equal to the given one (equality-based removal), then refactor. -/
def Clause.clone_without (c : Clause) (lit : Literal) : Clause :=
  Clause.refactor ⟨c.literals.filter (fun l => decide (l ≠ lit))⟩

/-- The sequence of resolvents produced by the double loop of
`Clause.pl_resolve` (lines 159-170), in iteration order, with tautological
resolvents dropped (line 166-167).  The Python local `resolvent` is
inlined. -/
def Clause.resolventList (a b : Clause) : List Clause :=
  a.literals.flatMap fun l1 =>
    b.literals.filterMap fun l2 =>
      if l1.is_complement l2 then
        if ((a.clone_without l1).merge (b.clone_without l2)).is_always_true then
          none
        else
          some ((a.clone_without l1).merge (b.clone_without l2))
      else none

/-- Embedding of `Clause.pl_resolve` (lines 148-172): the set `resolvents`
of retained resolvents, and `has_empty_clause`, which is set exactly when a
retained resolvent is the empty clause (line 168-169). -/
def Clause.pl_resolve (a b : Clause) : Finset Clause × Bool :=
  ((Clause.resolventList a b).toFinset,
   (Clause.resolventList a b).any Clause.is_empty)

theorem Clause.mem_resolventList {a b r : Clause}
    (h : r ∈ Clause.resolventList a b) :
    r.is_always_true = false ∧
      ∃ l1 ∈ a.literals, ∃ l2 ∈ b.literals,
        r = (a.clone_without l1).merge (b.clone_without l2) := by
  rw [Clause.resolventList] at h
  simp only [List.mem_flatMap, List.mem_filterMap] at h
  obtain ⟨l1, hl1, l2, hl2, hif⟩ := h
  by_cases hc : l1.is_complement l2 = true
  · rw [if_pos hc] at hif
    by_cases ht : ((a.clone_without l1).merge (b.clone_without l2)).is_always_true = true
    · rw [if_pos ht] at hif
      cases hif
    · rw [if_neg ht] at hif
      rw [Option.some.injEq] at hif
      refine ⟨?_, l1, hl1, l2, hl2, hif.symm⟩
      rw [← hif]
      exact Bool.eq_false_iff.mpr ht
  · rw [if_neg hc] at hif
    cases hif

/-- C2: the resolvent set returned by `pl_resolve` never contains a clause
on which `is_always_true` holds — tautologies are discarded before entering
the output set. -/
theorem pl_resolve_no_tautology (a b r : Clause)
    (h : r ∈ (Clause.pl_resolve a b).1) :
    r.is_always_true = false := by
  rw [Clause.pl_resolve] at h
  rw [List.mem_toFinset] at h
  exact (Clause.mem_resolventList h).1

/-- Witness for C2 at concrete clauses: resolving `A OR B` with `-A OR C`
yields the resolvent `B OR C`, which is not a tautology. -/
theorem pl_resolve_no_tautology_witness :
    Clause.mk [Literal.mk 'B' false, Literal.mk 'C' false] ∈
        (Clause.pl_resolve (Clause.mk [Literal.mk 'A' false, Literal.mk 'B' false])
          (Clause.mk [Literal.mk 'A' true, Literal.mk 'C' false])).1 ∧
      (Clause.mk [Literal.mk 'B' false, Literal.mk 'C' false]).is_always_true = false :=
  ⟨by decide,
    pl_resolve_no_tautology (Clause.mk [Literal.mk 'A' false, Literal.mk 'B' false])
      (Clause.mk [Literal.mk 'A' true, Literal.mk 'C' false])
      (Clause.mk [Literal.mk 'B' false, Literal.mk 'C' false]) (by decide)⟩

/-- Character-level embedding of Python `str.strip()`: drop whitespace from
both ends. -/
def pyStrip (l : List Char) : List Char :=
  ((l.dropWhile Char.isWhitespace).reverse.dropWhile Char.isWhitespace).reverse

/-- Character-level embedding of Python `split(" OR ")`: cut at each
leftmost, non-overlapping occurrence of the four characters of `" OR "`.
As in Python, the empty text yields the single token `[]`. -/
def splitOR : List Char → List (List Char)
  | ' ' :: 'O' :: 'R' :: ' ' :: rest => [] :: splitOR rest
  | c :: rest =>
    match splitOR rest with
    | t :: ts => (c :: t) :: ts
    | [] => [[c]]
  | [] => [[]]

/-- Body of `Literal.parse` (lines 42-51) on the character list.  Python
indexes `literal_str[0]` and `literal_str[1]`; an out-of-range index raises
IndexError, modelled as `none`.  Only ONE character is taken as the
symbol. -/
def Literal.parseChars : List Char → Option Literal
  | [] => none
  | c :: rest =>
    if c = '-' then
      match rest with
      | [] => none
      | c2 :: _ => some ⟨c2, true⟩
    else some ⟨c, false⟩

/-- Embedding of `Literal.parse` (lines 42-51). -/
def Literal.parse (s : String) : Option Literal :=
  Literal.parseChars s.data

/-- Embedding of `Clause.parse` (lines 135-146): split on `" OR "`, strip
each piece, parse each piece as a literal (a failing piece propagates the
IndexError), append in order, then refactor. -/
def Clause.parse (s : String) : Option Clause :=
  ((splitOR s.data).mapM (fun t => Literal.parseChars (pyStrip t))).map
    (fun ls => Clause.refactor ⟨ls⟩)

/-- Embedding of `KnowledgeBase.parse` (lines 182-189): parse every clause
string (`Clause.parse` already refactors), refactor once more, and collect
the clause list. -/
def KnowledgeBase.parse (strs : List String) : Option (List Clause) :=
  strs.mapM (fun s => (Clause.parse s).map Clause.refactor)

/-- C3: parsing the empty input text does NOT succeed with the empty
clause; `''.split(' OR ')` is `['']` in Python, so `Clause.parse('')` calls
`Literal.parse('')`, which raises IndexError (here: `none`).  Empty text is
a parse failure, contradicting the spec's requirement that it denote the
empty clause. -/
theorem clause_parse_empty_fails : Clause.parse "" = none := by decide

/-- C4 counterexample: parsing `-AB` yields the single-character symbol
`A`, not the entire remaining text `AB`. -/
theorem literal_parse_counterexample :
    (Literal.parse "-AB").map (fun l => l.symbol.toString) = some "A" ∧
      "A" ≠ "AB" := by
  constructor
  · rfl
  · decide

/-- C4 (amended): whenever `Literal.parse` succeeds, the negated flag is
set iff the text starts with `-`, and the symbol is the FIRST character of
the text after the optional leading `-` (any further characters are
ignored); parsing fails on the empty text and on the bare text `-`. -/
theorem literal_parse_spec (s : String) (l : Literal)
    (h : Literal.parse s = some l) :
    (l.negated = true ↔ s.data.head? = some '-') ∧
      (if l.negated then s.data.tail else s.data).head? = some l.symbol := by
  rw [Literal.parse] at h
  match hs : s.data with
  | [] =>
    rw [hs, Literal.parseChars] at h
    exact Option.noConfusion h
  | c :: rest =>
    rw [hs] at h
    rw [Literal.parseChars.eq_def] at h
    simp only [] at h
    by_cases hc : c = '-'
    · cases rest with
      | nil =>
        rw [if_pos hc] at h
        exact Option.noConfusion h
      | cons c2 r2 =>
        rw [if_pos hc] at h
        rw [Option.some.injEq] at h
        rw [← h, hc]
        simp
    · rw [if_neg hc] at h
      rw [Option.some.injEq] at h
      rw [← h]
      simp [hc]

/-- Witness for C4's amended theorem at the input `-AB`. -/
theorem literal_parse_spec_witness :
    Literal.parse "-AB" = some (Literal.mk 'A' true) ∧
      (((Literal.mk 'A' true).negated = true ↔ "-AB".data.head? = some '-') ∧
        (if (Literal.mk 'A' true).negated then "-AB".data.tail
          else "-AB".data).head? = some (Literal.mk 'A' true).symbol) :=
  ⟨by decide, literal_parse_spec "-AB" (Literal.mk 'A' true) (by decide)⟩

/-- Embedding of class `KnowledgeBase` (lines 175-180): the stored premise
clause list `self.clauses`. -/
structure KnowledgeBase where
  clauses : List Clause
deriving DecidableEq, Repr

/-- Embedding of `KnowledgeBase.add_clause` (lines 179-180). -/
def KnowledgeBase.add_clause (kb : KnowledgeBase) (c : Clause) : KnowledgeBase :=
  ⟨kb.clauses ++ [c]⟩

/-- The negated-query unit clauses built in step 1 of `pl_resolution`
(lines 200-206): split `alpha` on `" OR "`, strip each piece, parse it as a
literal (failure raises, modelled as `none`), negate it in place, and wrap
it into a fresh single-literal clause. -/
def negatedQueryUnits (alpha : String) : Option (List Clause) :=
  (splitOR alpha.data).mapM
    (fun t => (Literal.parseChars (pyStrip t)).map
      (fun l => (Clause.mk []).add_literal l.negate))

/-- The duplicate-skipping append of lines 207-208: each unit clause is
appended to the copied premise list unless an equal clause is already
present.  All clauses reaching this loop from `KnowledgeBase.parse` are
refactored and the units are single-literal, so Python's set-of-literals
equality (`Clause.__eq__`) coincides with equality of the canonical
literal lists, which is how membership is decided here. -/
def addUnits (clauses : List Clause) (units : List Clause) : List Clause :=
  units.foldl (fun cs u => if u ∈ cs then cs else cs ++ [u]) clauses

/-- One saturation round (lines 216-224): resolve every ordered pair of
working clauses (a clause may pair with itself), accumulate all resolvents,
and record whether any pair produced an empty resolvent.  The Python `break`
after a contradiction only prunes which further resolvents of the same
`clause1` join `new_clauses` in that final round; it cannot change the
flag, the verdict, or any non-final round, and no claim inspects the final
round's trace entry, so the unpruned union is used. -/
def resolveRound (clauses : Finset Clause) : Finset Clause × Bool :=
  (clauses.biUnion (fun c1 => clauses.biUnion (fun c2 => (c1.pl_resolve c2).1)),
   decide (∃ c1 ∈ clauses, ∃ c2 ∈ clauses, (c1.pl_resolve c2).2 = true))

/-- The `while True` loop of lines 215-238, with an explicit fuel counter
standing in for the unbounded iteration (`none` = fuel exhausted; theorem
`pl_resolution_halts` shows the fuel chosen in `pl_resolution` is never
exhausted).  Per round: append the genuinely new clauses to the trace
(line 227), return `(True, output)` on a contradiction (lines 230-231),
return `(False, output)` when the resolvents are all old (lines 234-235),
otherwise grow the working set and continue (line 238). -/
def plLoop : Nat → Finset Clause → List (Finset Clause) →
    Option (Bool × List (Finset Clause))
  | 0, _, _ => none
  | n + 1, clauses, output =>
    if (resolveRound clauses).2 then
      some (true, output ++ [(resolveRound clauses).1 \ clauses])
    else if (resolveRound clauses).1 ⊆ clauses then
      some (false, output ++ [(resolveRound clauses).1 \ clauses])
    else
      plLoop n (clauses ∪ (resolveRound clauses).1)
        (output ++ [(resolveRound clauses).1 \ clauses])

/-- All literals occurring in a clause set. -/
def litsOf (S : Finset Clause) : Finset Literal :=
  S.biUnion (fun c => c.literals.toFinset)

/-- Fuel sufficient for the saturation loop: the working set only ever
holds initial clauses and canonical clauses over the initial literal
universe, so it can grow strictly at most
`S.card + 2 ^ (litsOf S).card` times. -/
def plFuel (S : Finset Clause) : Nat :=
  S.card + 2 ^ (litsOf S).card + 1

/-- Embedding of `KnowledgeBase.pl_resolution` (lines 191-238): build the
working set from a copy of the premises plus the deduplicated negated-query
unit clauses (`set(clauses)` becomes `toFinset`), then run the saturation
loop. -/
def KnowledgeBase.pl_resolution (self : KnowledgeBase) (alpha : String) :
    Option (Bool × List (Finset Clause)) :=
  match negatedQueryUnits alpha with
  | none => none
  | some units =>
    plLoop (plFuel (addUnits self.clauses units).toFinset)
      (addUnits self.clauses units).toFinset []

/-- Statement-level embedding of `pl_resolution` that also returns the heap
state of the knowledge base at each `return`: line 199 reads `self.clauses`
into a fresh local list (`.copy()`); every later statement appends to that
local list, allocates fresh `Literal`/`Clause` values (`parse`, `negate`,
`add_literal`, and inside `pl_resolve` the `clone_without`/`merge` calls
construct new objects), or manipulates the query-local set — no statement
of lines 198-238 assigns `self.clauses` or calls a mutating method
(`refactor`, `add_literal`, `negate`) on a clause reachable from it.  The
knowledge base component of the result is therefore the unchanged
`self`. -/
def KnowledgeBase.pl_resolution_st (self : KnowledgeBase) (alpha : String) :
    Option (Bool × List (Finset Clause)) × KnowledgeBase :=
  (KnowledgeBase.pl_resolution self alpha, self)

/-- C5: in every saturation round in which no empty-clause resolvent is
derived, if the round's accumulated resolvent set is contained in the
working set then the loop immediately returns `(false, trace)`. -/
theorem plLoop_saturation (n : Nat) (clauses : Finset Clause)
    (output : List (Finset Clause))
    (hne : (resolveRound clauses).2 = false)
    (hsub : (resolveRound clauses).1 ⊆ clauses) :
    plLoop (n + 1) clauses output =
      some (false, output ++ [(resolveRound clauses).1 \ clauses]) := by
  rw [plLoop, hne]
  simp [hsub]

/-- Witness for C5 on the one-clause working set `{A}`: no resolvent at
all is produced, so the round saturates and reports non-entailment. -/
theorem plLoop_saturation_witness :
    (resolveRound {Clause.mk [Literal.mk 'A' false]}).2 = false ∧
      (resolveRound {Clause.mk [Literal.mk 'A' false]}).1 ⊆
        {Clause.mk [Literal.mk 'A' false]} ∧
      plLoop 1 {Clause.mk [Literal.mk 'A' false]} [] =
        some (false,
          [] ++ [(resolveRound {Clause.mk [Literal.mk 'A' false]}).1 \
            {Clause.mk [Literal.mk 'A' false]}]) :=
  ⟨by decide, by decide,
    plLoop_saturation 0 {Clause.mk [Literal.mk 'A' false]} [] (by decide)
      (by decide)⟩

/-- C6 (Scenario 1, modus ponens): for the knowledge base parsed from
premises `["A OR B", "-A"]` and the query `B`, `pl_resolution` reports
entailment. -/
theorem pl_resolution_modus_ponens :
    (KnowledgeBase.parse ["A OR B", "-A"]).bind
        (fun kb => (KnowledgeBase.mk kb |>.pl_resolution "B").map Prod.fst) =
      some true := by
  decide

/-- C9: `pl_resolution` does not mutate the knowledge base it is called
on — the knowledge-base state returned by the statement-level embedding is
the same clause sequence the call started from, so the knowledge base
stays reusable for further queries. -/
theorem pl_resolution_preserves_kb (kb : KnowledgeBase) (alpha : String) :
    ((KnowledgeBase.pl_resolution_st kb alpha).2).clauses = kb.clauses :=
  rfl

theorem Clause.clone_without_subset (c : Clause) (lit : Literal) :
    ∀ x ∈ (c.clone_without lit).literals, x ∈ c.literals := by
  intro x hx
  rw [Clause.clone_without, Clause.refactor] at hx
  rw [Clause.mem_refactorL] at hx
  exact (List.mem_filter.mp hx).1

theorem Clause.merge_canonical (a b : Clause) :
    List.Sorted Literal.le (a.merge b).literals ∧ (a.merge b).literals.Nodup :=
  ⟨Clause.refactorL_sorted _, Clause.refactorL_nodup _⟩

theorem Clause.merge_subset (a b : Clause) :
    ∀ x ∈ (a.merge b).literals, x ∈ a.literals ∨ x ∈ b.literals := by
  intro x hx
  rw [Clause.merge, Clause.refactor] at hx
  rw [Clause.mem_refactorL] at hx
  exact List.mem_append.mp hx

theorem resolvent_canonical {a b r : Clause}
    (h : r ∈ (Clause.pl_resolve a b).1) :
    (List.Sorted Literal.le r.literals ∧ r.literals.Nodup) ∧
      ∀ x ∈ r.literals, x ∈ a.literals ∨ x ∈ b.literals := by
  rw [Clause.pl_resolve, List.mem_toFinset] at h
  obtain ⟨-, l1, -, l2, -, hr⟩ := Clause.mem_resolventList h
  subst hr
  refine ⟨Clause.merge_canonical _ _, ?_⟩
  intro x hx
  rcases Clause.merge_subset _ _ x hx with h' | h'
  · exact Or.inl (Clause.clone_without_subset _ _ x h')
  · exact Or.inr (Clause.clone_without_subset _ _ x h')

/-- Loop invariant of the saturation loop: every working clause is either
one of the initial clauses, or a canonical clause over the initial literal
universe. -/
def stateOK (S cl : Finset Clause) : Prop :=
  ∀ c ∈ cl, c ∈ S ∨
    ((List.Sorted Literal.le c.literals ∧ c.literals.Nodup) ∧
      ∀ x ∈ c.literals, x ∈ litsOf S)

theorem stateOK_lits {S cl : Finset Clause} (h : stateOK S cl) {c : Clause}
    (hc : c ∈ cl) : ∀ x ∈ c.literals, x ∈ litsOf S := by
  intro x hx
  rcases h c hc with hS | hcanon
  · exact Finset.mem_biUnion.mpr ⟨c, hS, List.mem_toFinset.mpr hx⟩
  · exact hcanon.2 x hx

theorem stateOK_union_round {S cl : Finset Clause} (h : stateOK S cl) :
    stateOK S (cl ∪ (resolveRound cl).1) := by
  intro c hc
  rcases Finset.mem_union.mp hc with hcl | hnew
  · exact h c hcl
  · rw [resolveRound] at hnew
    rw [Finset.mem_biUnion] at hnew
    obtain ⟨c1, hc1, hnew⟩ := hnew
    rw [Finset.mem_biUnion] at hnew
    obtain ⟨c2, hc2, hres⟩ := hnew
    obtain ⟨hcanon, hsub⟩ := resolvent_canonical hres
    refine Or.inr ⟨hcanon, ?_⟩
    intro x hx
    rcases hsub x hx with h' | h'
    · exact stateOK_lits h hc1 x h'
    · exact stateOK_lits h hc2 x h'

theorem stateOK_card_le {S cl : Finset Clause} (h : stateOK S cl) :
    cl.card ≤ S.card + 2 ^ (litsOf S).card := by
  classical
  set L := Finset.sort Literal.le (litsOf S) with hL
  have hsub : cl ⊆ S ∪ (L.sublists.map Clause.mk).toFinset := by
    intro c hc
    rcases h c hc with hS | ⟨⟨hsort, hnodup⟩, hlit⟩
    · exact Finset.mem_union_left _ hS
    · refine Finset.mem_union_right _ ?_
      rw [List.mem_toFinset, List.mem_map]
      refine ⟨c.literals, ?_, rfl⟩
      rw [List.mem_sublists]
      refine List.sublist_of_subperm_of_sorted ?_ hsort (Finset.sort_sorted _ _)
      refine List.subperm_of_subset hnodup ?_
      intro x hx
      rw [hL, Finset.mem_sort]
      exact hlit x hx
  have hcard : cl.card ≤ (S ∪ (L.sublists.map Clause.mk).toFinset).card :=
    Finset.card_le_card hsub
  have hU : (L.sublists.map Clause.mk).toFinset.card ≤ 2 ^ (litsOf S).card := by
    calc (L.sublists.map Clause.mk).toFinset.card
        ≤ (L.sublists.map Clause.mk).length := List.toFinset_card_le _
      _ = L.sublists.length := List.length_map _ _
      _ = 2 ^ L.length := List.length_sublists L
      _ = 2 ^ (litsOf S).card := by rw [hL, Finset.length_sort]
  calc cl.card ≤ (S ∪ (L.sublists.map Clause.mk).toFinset).card := hcard
    _ ≤ S.card + (L.sublists.map Clause.mk).toFinset.card := Finset.card_union_le _ _
    _ ≤ S.card + 2 ^ (litsOf S).card := by omega

theorem plLoop_halts (S : Finset Clause) :
    ∀ (n : Nat) (cl : Finset Clause) (output : List (Finset Clause)),
      stateOK S cl → S.card + 2 ^ (litsOf S).card + 1 ≤ cl.card + n →
      ∃ r, plLoop n cl output = some r := by
  intro n
  induction n with
  | zero =>
    intro cl output hok hcard
    exfalso
    have := stateOK_card_le hok
    omega
  | succ n ih =>
    intro cl output hok hcard
    by_cases h1 : (resolveRound cl).2 = true
    · exact ⟨(true, output ++ [(resolveRound cl).1 \ cl]),
        by rw [plLoop]; simp [h1]⟩
    · by_cases h2 : (resolveRound cl).1 ⊆ cl
      · exact ⟨(false, output ++ [(resolveRound cl).1 \ cl]),
          by rw [plLoop]; simp [h1, h2]⟩
      · have hss : cl ⊂ cl ∪ (resolveRound cl).1 := by
          rw [Finset.ssubset_def]
          refine ⟨Finset.subset_union_left, ?_⟩
          intro hback
          exact h2 ((Finset.union_subset_iff.mp hback).2)
        have hgrow : cl.card < (cl ∪ (resolveRound cl).1).card :=
          Finset.card_lt_card hss
        obtain ⟨r, hr⟩ := ih (cl ∪ (resolveRound cl).1)
          (output ++ [(resolveRound cl).1 \ cl])
          (stateOK_union_round hok) (by omega)
        refine ⟨r, ?_⟩
        rw [plLoop]
        simp only [h1, if_false, Bool.false_eq_true]
        rw [if_neg h2]
        exact hr

/-- C1: for every knowledge base and every query string whose negation
parses (every well-formed query), the resolution-refutation loop halts
after finitely many rounds with a verdict and a trace — the fuel chosen in
`pl_resolution` is never exhausted. -/
theorem pl_resolution_halts (kb : KnowledgeBase) (alpha : String)
    (units : List Clause) (h : negatedQueryUnits alpha = some units) :
    ∃ verdict trace, kb.pl_resolution alpha = some (verdict, trace) := by
  rw [KnowledgeBase.pl_resolution, h]
  obtain ⟨r, hr⟩ := plLoop_halts (addUnits kb.clauses units).toFinset
    (plFuel (addUnits kb.clauses units).toFinset)
    (addUnits kb.clauses units).toFinset []
    (fun c hc => Or.inl hc)
    (by rw [plFuel]; omega)
  exact ⟨r.1, r.2, hr⟩

/-- Witness for C1: the empty knowledge base with the query `A`. -/
theorem pl_resolution_halts_witness :
    negatedQueryUnits "A" = some [Clause.mk [Literal.mk 'A' true]] ∧
      ∃ verdict trace,
        (KnowledgeBase.mk []).pl_resolution "A" = some (verdict, trace) :=
  ⟨by decide,
    pl_resolution_halts (KnowledgeBase.mk []) "A"
      [Clause.mk [Literal.mk 'A' true]] (by decide)⟩

/-- Embedding of `Clause.__eq__` (lines 70-71): two clauses are equal when
their literal SETS are equal, irrespective of order or duplicates. -/
def Clause.pyEq (a b : Clause) : Prop :=
  a.literals.toFinset = b.literals.toFinset

instance : DecidableRel Clause.pyEq := fun a b => by
  unfold Clause.pyEq
  infer_instance

/-- Embedding of `Clause.__hash__` (lines 73-74),
`hash(tuple(self.literals))`: a deterministic function of the ordered
literal sequence (the exact mixing is immaterial to the claims; only that
it depends on nothing but the list matters). -/
def Clause.pyHash (c : Clause) : UInt64 :=
  c.literals.foldl
    (fun h l => mixHash h (mixHash (UInt64.ofNat l.symbol.toNat)
      (if l.negated then 1 else 0))) 7

theorem refactor_eq_of_pyEq (a b : Clause)
    (h : Clause.pyEq a.refactor b.refactor) : a.refactor = b.refactor := by
  have hmem : ∀ x, x ∈ (a.refactor).literals ↔ x ∈ (b.refactor).literals := by
    intro x
    rw [← List.mem_toFinset, h, List.mem_toFinset]
  have h1 : List.Subperm (a.refactor).literals (b.refactor).literals :=
    List.subperm_of_subset (Clause.refactorL_nodup _)
      (fun x hx => (hmem x).mp hx)
  have h2 : List.Subperm (b.refactor).literals (a.refactor).literals :=
    List.subperm_of_subset (Clause.refactorL_nodup _)
      (fun x hx => (hmem x).mpr hx)
  have hperm : List.Perm (a.refactor).literals (b.refactor).literals :=
    h1.antisymm h2
  have heq : (a.refactor).literals = (b.refactor).literals :=
    List.eq_of_perm_of_sorted hperm (Clause.refactorL_sorted _)
      (Clause.refactorL_sorted _)
  exact congrArg Clause.mk heq

/-- C10: on refactored clauses, Python's set equality (`Clause.__eq__`)
implies equal hashes (`Clause.__hash__`): equal canonical clauses have
identical literal lists, hence identical `hash(tuple(literals))` — the
property that makes hash-set membership and deduplication of working
clauses correct. -/
theorem clause_hash_consistent (a b : Clause)
    (h : Clause.pyEq a.refactor b.refactor) :
    Clause.pyHash a.refactor = Clause.pyHash b.refactor :=
  congrArg Clause.pyHash (refactor_eq_of_pyEq a b h)

/-- Witness for C10: `A OR B` and `B OR A OR A` are set-equal after
canonicalization and hash identically. -/
theorem clause_hash_consistent_witness :
    Clause.pyEq
        (Clause.mk [Literal.mk 'A' false, Literal.mk 'B' false]).refactor
        (Clause.mk [Literal.mk 'B' false, Literal.mk 'A' false,
          Literal.mk 'A' false]).refactor ∧
      Clause.pyHash
          (Clause.mk [Literal.mk 'A' false, Literal.mk 'B' false]).refactor =
        Clause.pyHash
          (Clause.mk [Literal.mk 'B' false, Literal.mk 'A' false,
            Literal.mk 'A' false]).refactor :=
  ⟨by decide,
    clause_hash_consistent
      (Clause.mk [Literal.mk 'A' false, Literal.mk 'B' false])
      (Clause.mk [Literal.mk 'B' false, Literal.mk 'A' false,
        Literal.mk 'A' false]) (by decide)⟩

/-- Witness for C8: the clause `A OR -A OR B` contains the complementary
pair on `A` and is detected as a tautology after refactoring. -/
theorem is_always_true_after_refactor_witness :
    Literal.mk 'A' false ∈ (Clause.mk [Literal.mk 'A' false,
        Literal.mk 'A' true, Literal.mk 'B' false]).literals ∧
      Literal.mk 'A' true ∈ (Clause.mk [Literal.mk 'A' false,
        Literal.mk 'A' true, Literal.mk 'B' false]).literals ∧
      (Literal.mk 'A' false).is_complement (Literal.mk 'A' true) = true ∧
      ((Clause.mk [Literal.mk 'A' false, Literal.mk 'A' true,
        Literal.mk 'B' false]).refactor).is_always_true = true :=
  ⟨by decide, by decide, by decide,
    is_always_true_after_refactor (Literal.mk 'A' false) (Literal.mk 'A' true)
      (Clause.mk [Literal.mk 'A' false, Literal.mk 'A' true,
        Literal.mk 'B' false]) (by decide) (by decide) (by decide)⟩
